import Mathlib

/-!
# Verification of the `intcode` virtual machine (`src/intcode/src/program.rs`, `io.rs`)

A shallow embedding of the Intcode interpreter shared by the puzzle binaries.

Representation choices:
* `i64` values are `Int`; arithmetic that Rust performs on `i64` (Add, Mul,
  relative-base adjustment) is wrapped to the two's-complement range by
  `wrap64`, and the `as usize` cast is `asUsize` (reduction mod `2^64`).
* `usize` addresses are `Nat`.
* The dense memory segment `Vec<i64>` is `List Int`; the `HashMap<usize, i64>`
  overflow map is an association list with insert-replaces semantics
  (`insertAssoc` / `lookupAssoc`), which models exactly the map's
  `get`/`insert` observations.
* Rust strings are `List Char`; `i64::to_string` is `intChars` and
  `str::parse::<i64>` is `parseI64`.
* The machine's input device is modelled by its `VecDeque<i64>` buffer
  (`DefaultInputDevice`, or a `ChannelInputDevice` whose channel is empty or
  gone): `put` pushes to the front (`List.cons`), `get_maybe` pops from the
  back (`popBack`).  The interactive console fallback of the blocking
  `get` path is not modelled: it surfaces as an explicit error value
  (no claim exercises it).  The output device buffer is modelled the same way.
* The mutating methods become state-passing functions on `Machine`; the
  two unbounded `loop`s (`execute`, `execute_until_event`) take fuel and
  return `none` when it runs out.
-/

/-- Two's-complement wraparound of `i64` arithmetic (Rust release semantics). -/
def wrap64 (x : Int) : Int := (x + 2 ^ 63) % 2 ^ 64 - 2 ^ 63

/-- The Rust `as usize` cast of an `i64`: reduction modulo `2^64`. -/
def asUsize (x : Int) : Nat := (x % 2 ^ 64).toNat

/-- The decimal digit character for `d < 10`, as Rust's integer formatting emits it. -/
def digitCh (d : Nat) : Char := Char.ofNat (48 + d)

/-- Fuel-driven body of decimal rendering of a natural number (most significant first). -/
def natCharsAux : Nat → Nat → List Char
  | 0, _ => []
  | fuel + 1, n =>
    if n < 10 then [digitCh n]
    else natCharsAux fuel (n / 10) ++ [digitCh (n % 10)]

/-- Decimal rendering of a natural number, e.g. `natChars 210 = ['2','1','0']`. -/
def natChars (n : Nat) : List Char := natCharsAux (n + 1) n

/-- Rust `i64::to_string`: optional leading minus sign, then decimal digits. -/
def intChars (v : Int) : List Char :=
  if v < 0 then '-' :: natChars (-v).toNat else natChars v.toNat

/-- The numeric value of an ASCII digit character, if it is one. -/
def digitVal (c : Char) : Option Nat :=
  if 48 ≤ c.toNat ∧ c.toNat ≤ 57 then some (c.toNat - 48) else none

/-- Accumulating decimal parse of a digit string; fails on any non-digit. -/
def parseNatAux (acc : Nat) : List Char → Option Nat
  | [] => some acc
  | c :: cs =>
    match digitVal c with
    | none => none
    | some d => parseNatAux (acc * 10 + d) cs

/-- Rust `str::parse::<i64>`: optional sign, one or more digits, nothing else,
value within the `i64` range. -/
def parseI64 (cs : List Char) : Option Int :=
  match cs with
  | [] => none
  | c :: rest =>
    if c = '-' then
      match rest with
      | [] => none
      | _ :: _ =>
        (parseNatAux 0 rest).bind fun m =>
          if m ≤ 2 ^ 63 then some (-(m : Int)) else none
    else if c = '+' then
      match rest with
      | [] => none
      | _ :: _ =>
        (parseNatAux 0 rest).bind fun m =>
          if m ≤ 2 ^ 63 - 1 then some ((m : Int)) else none
    else
      (parseNatAux 0 (c :: rest)).bind fun m =>
        if m ≤ 2 ^ 63 - 1 then some ((m : Int)) else none

/-- Rust `str::split(",")`: splits at every comma, keeping empty pieces. -/
def splitComma : List Char → List (List Char)
  | [] => [[]]
  | c :: cs =>
    match splitComma cs with
    | [] => [[]]
    | g :: gs => if c = ',' then [] :: g :: gs else (c :: g) :: gs

/-- `VecDeque::pop_back` on a list whose head is the deque's front. -/
def popBack : List Int → Option (Int × List Int)
  | [] => none
  | x :: xs =>
    match popBack xs with
    | none => some (x, [])
    | some (v, rest) => some (v, x :: rest)

/-- `HashMap::insert`: replaces any previous binding of the key. -/
def insertAssoc (l : List (Nat × Int)) (k : Nat) (v : Int) : List (Nat × Int) :=
  (k, v) :: l.filter fun p => p.1 ≠ k

/-- `HashMap::get`. -/
def lookupAssoc (l : List (Nat × Int)) (k : Nat) : Option Int :=
  (l.find? fun p => p.1 = k).map fun p => p.2

/-- `Event` (`program.rs`): the reasons `execute_until_event` returns. -/
inductive Event where
  | InputRequired
  | ProducedOutput
  | Exited
deriving DecidableEq, Repr

/-- `ParameterMode` (`program.rs`). -/
inductive ParameterMode where
  | Position
  | Immediate
  | Relative
deriving DecidableEq, Repr

/-- `Parameter` (`program.rs`): a raw `i64` plus its mode. -/
structure Parameter where
  param : Int
  mode : ParameterMode
deriving DecidableEq, Repr

/-- `IntcodeInstruction` (`program.rs`). -/
inductive IntcodeInstruction where
  | Add (o1 o2 dest : Parameter)
  | Mul (o1 o2 dest : Parameter)
  | LoadInput (dest : Parameter)
  | Output (val : Parameter)
  | LessThan (o1 o2 dest : Parameter)
  | Equals (o1 o2 dest : Parameter)
  | JumpIfTrue (predicate target : Parameter)
  | JumpIfFalse (predicate target : Parameter)
  | AdjustRelativeBase (val : Parameter)
  | Exit
deriving DecidableEq, Repr

/-- `IntcodeProgram` (`program.rs`): memory, overflow map, instruction pointer,
relative base, and the buffers of the attached input and output devices. -/
structure Machine where
  memory : List Int
  extended_memory : List (Nat × Int)
  ip : Nat
  relative_base : Int
  input : List Int
  output : List Int
deriving DecidableEq, Repr

/-- `instruction_param_length` (`program.rs` lines 117-131). -/
def instruction_param_length (opcode : Int) : Except String Nat :=
  if opcode = 1 then .ok 3
  else if opcode = 2 then .ok 3
  else if opcode = 3 then .ok 1
  else if opcode = 4 then .ok 1
  else if opcode = 5 then .ok 2
  else if opcode = 6 then .ok 2
  else if opcode = 7 then .ok 3
  else if opcode = 8 then .ok 3
  else if opcode = 9 then .ok 1
  else if opcode = 99 then .ok 0
  else .error ("Invalid opcode: " ++ toString opcode)

/-- The `match` in `get_instruction` mapping a mode character to a mode
(`program.rs` lines 199-203): anything other than `'0'`/`'1'` is Relative. -/
def modeOfChar (c : Char) : ParameterMode :=
  if c = '0' then .Position
  else if c = '1' then .Immediate
  else .Relative

/-- The parameter-mode list of `get_instruction` (`program.rs` line 198-204):
the digit characters of `instruction / 100` reversed, mapped to modes, padded
with the default Position mode, and truncated to the parameter count. -/
def param_modes (instruction : Int) (num_params : Nat) : List ParameterMode :=
  (((intChars (Int.tdiv instruction 100)).reverse.map modeOfChar)
      ++ List.replicate num_params ParameterMode.Position).take num_params

/-- `IntcodeProgram::raw_to_memory` (`program.rs` lines 134-140). -/
def raw_to_memory (raw : List Char) : Except String (List Int) :=
  (splitComma raw).mapM fun item =>
    match parseI64 item with
    | some v => .ok v
    | none => .error ("Invalid integer given: " ++ String.mk item)

/-- `IntcodeProgram::from_memory` (`program.rs` lines 148-157). -/
def from_memory (memory : List Int) : Machine :=
  { memory := memory, extended_memory := [], ip := 0, relative_base := 0,
    input := [], output := [] }

/-- `IntcodeProgram::load_position` (`program.rs` lines 159-165). -/
def load_position (s : Machine) (location : Nat) : Int :=
  if location ≥ s.memory.length then
    (lookupAssoc s.extended_memory location).getD 0
  else
    s.memory.getD location 0

/-- `IntcodeProgram::load` (`program.rs` lines 167-173). -/
def load (s : Machine) (p : Parameter) : Int :=
  match p.mode with
  | .Position => load_position s (asUsize p.param)
  | .Immediate => p.param
  | .Relative => load_position s (asUsize (wrap64 (p.param + s.relative_base)))

/-- The second half of `IntcodeProgram::store` (`program.rs` lines 181-185):
the write at an already-resolved location. -/
def writeMem (s : Machine) (location : Nat) (value : Int) : Machine :=
  if location ≥ s.memory.length then
    { s with extended_memory := insertAssoc s.extended_memory location value }
  else
    { s with memory := s.memory.set location value }

/-- `IntcodeProgram::store` (`program.rs` lines 175-186): resolves the
location from the parameter (lines 176-179) and performs the write. -/
def store (s : Machine) (p : Parameter) (value : Int) : Machine :=
  let location :=
    match p.mode with
    | .Relative => asUsize (wrap64 (p.param + s.relative_base))
    | _ => asUsize p.param
  writeMem s location value

/-- `IntcodeProgram::get_instruction` (`program.rs` lines 190-266): decodes
the instruction at `ip` and returns it with the advanced instruction pointer
`ip + 1 + num_params` (the Rust method stores that pointer into `self.ip`). -/
def get_instruction (s : Machine) : Except String (IntcodeInstruction × Nat) :=
  let curr_ip := s.ip
  let instruction := load_position s curr_ip
  let opcode := Int.tmod instruction 100
  match instruction_param_length opcode with
  | .error e => .error e
  | .ok num_params =>
    let modes := param_modes instruction num_params
    let newIp := curr_ip + 1 + num_params
    if opcode = 1 then
      .ok (.Add ⟨load_position s (curr_ip + 1), modes.getD 0 .Position⟩
        ⟨load_position s (curr_ip + 2), modes.getD 1 .Position⟩
        ⟨load_position s (curr_ip + 3), modes.getD 2 .Position⟩, newIp)
    else if opcode = 2 then
      .ok (.Mul ⟨load_position s (curr_ip + 1), modes.getD 0 .Position⟩
        ⟨load_position s (curr_ip + 2), modes.getD 1 .Position⟩
        ⟨load_position s (curr_ip + 3), modes.getD 2 .Position⟩, newIp)
    else if opcode = 3 then
      .ok (.LoadInput ⟨load_position s (curr_ip + 1), modes.getD 0 .Position⟩, newIp)
    else if opcode = 4 then
      .ok (.Output ⟨load_position s (curr_ip + 1), modes.getD 0 .Position⟩, newIp)
    else if opcode = 5 then
      .ok (.JumpIfTrue ⟨load_position s (curr_ip + 1), modes.getD 0 .Position⟩
        ⟨load_position s (curr_ip + 2), modes.getD 1 .Position⟩, newIp)
    else if opcode = 6 then
      .ok (.JumpIfFalse ⟨load_position s (curr_ip + 1), modes.getD 0 .Position⟩
        ⟨load_position s (curr_ip + 2), modes.getD 1 .Position⟩, newIp)
    else if opcode = 7 then
      .ok (.LessThan ⟨load_position s (curr_ip + 1), modes.getD 0 .Position⟩
        ⟨load_position s (curr_ip + 2), modes.getD 1 .Position⟩
        ⟨load_position s (curr_ip + 3), modes.getD 2 .Position⟩, newIp)
    else if opcode = 8 then
      .ok (.Equals ⟨load_position s (curr_ip + 1), modes.getD 0 .Position⟩
        ⟨load_position s (curr_ip + 2), modes.getD 1 .Position⟩
        ⟨load_position s (curr_ip + 3), modes.getD 2 .Position⟩, newIp)
    else if opcode = 9 then
      .ok (.AdjustRelativeBase ⟨load_position s (curr_ip + 1), modes.getD 0 .Position⟩, newIp)
    else if opcode = 99 then
      .ok (.Exit, newIp)
    else .error "Invalid opcode"

/-- `IntcodeProgram::execute_instruction` (`program.rs` lines 270-314), on the
state whose `ip` the decoder has already advanced.  `input_break` selects the
non-blocking input path; on the blocking path an empty input buffer would fall
through to the interactive console, which is modelled as an error value. -/
def execute_instruction (s : Machine) (instruction : IntcodeInstruction)
    (input_break : Bool) : Except String (Option Event × Machine) :=
  match instruction with
  | .Add o1 o2 dest =>
    .ok (none, store s dest (wrap64 (load s o1 + load s o2)))
  | .Mul o1 o2 dest =>
    .ok (none, store s dest (wrap64 (load s o1 * load s o2)))
  | .LoadInput dest =>
    if input_break then
      match popBack s.input with
      | some (v, rest) => .ok (none, store { s with input := rest } dest v)
      | none => .ok (some .InputRequired, s)
    else
      match popBack s.input with
      | some (v, rest) => .ok (none, store { s with input := rest } dest v)
      | none => .error "console input not modelled"
  | .Output val =>
    .ok (some .ProducedOutput, { s with output := load s val :: s.output })
  | .JumpIfTrue predicate target =>
    .ok (none, if load s predicate ≠ 0 then { s with ip := asUsize (load s target) } else s)
  | .JumpIfFalse predicate target =>
    .ok (none, if load s predicate = 0 then { s with ip := asUsize (load s target) } else s)
  | .LessThan o1 o2 dest =>
    .ok (none, store s dest (if load s o1 < load s o2 then 1 else 0))
  | .Equals o1 o2 dest =>
    .ok (none, store s dest (if load s o1 = load s o2 then 1 else 0))
  | .AdjustRelativeBase val =>
    .ok (none, { s with relative_base := wrap64 (s.relative_base + load s val) })
  | .Exit => .ok (some .Exited, s)

/-- One iteration of the `execute_until_event` loop (`program.rs` lines
324-334): decode, execute non-blockingly, and reset the instruction pointer
to its pre-decode value for the InputRequired and Exited events. -/
def stepEvent (s : Machine) : Except String (Option Event × Machine) :=
  match get_instruction s with
  | .error e => .error e
  | .ok (instruction, newIp) =>
    match execute_instruction { s with ip := newIp } instruction true with
    | .error e => .error e
    | .ok (some ev, t) =>
      .ok (some ev, if ev = .ProducedOutput then t else { t with ip := s.ip })
    | .ok (none, t) => .ok (none, t)

/-- `IntcodeProgram::execute_until_event` (`program.rs` lines 323-335), with
fuel bounding the internal loop; `none` means the fuel ran out. -/
def execute_until_event : Nat → Machine → Option (Except String (Event × Machine))
  | 0, _ => none
  | fuel + 1, s =>
    match stepEvent s with
    | .error e => some (.error e)
    | .ok (some ev, t) => some (.ok (ev, t))
    | .ok (none, t) => execute_until_event fuel t

/-- `IntcodeProgram::execute` (`program.rs` lines 316-321), with fuel
bounding the loop; `none` means the fuel ran out. -/
def execute : Nat → Machine → Option (Except String Machine)
  | 0, _ => none
  | fuel + 1, s =>
    match get_instruction s with
    | .error e => some (.error e)
    | .ok (instruction, newIp) =>
      match execute_instruction { s with ip := newIp } instruction false with
      | .error e => some (.error e)
      | .ok (some .Exited, t) => some (.ok t)
      | .ok (_, t) => execute fuel t

/-- `IntcodeProgram::give_input` (`program.rs` line 345): the input device's
`put` pushes onto the front of its buffer. -/
def give_input (s : Machine) (v : Int) : Machine :=
  { s with input := v :: s.input }

/-- Drains a device buffer by repeated `pop_back`, oldest value first; the
fuel argument is instantiated with the buffer length, after which `pop_back`
is exhausted. -/
def drainAux : Nat → List Int → List Int
  | 0, _ => []
  | fuel + 1, buf =>
    match popBack buf with
    | none => []
    | some (v, rest) => v :: drainAux fuel rest

/-- `IntcodeProgram::get_all_output` (`program.rs` lines 347-350): repeated
`output.get()` until it yields nothing. -/
def get_all_output (s : Machine) : List Int :=
  drainAux s.output.length s.output

/-- `ChannelOutputDevice` (`io.rs` lines 32-36): a send channel whose
receiving end may be gone, plus the local fallback buffer. -/
structure ChannelOutputDevice where
  buffer : List Int
  receiverPresent : Bool
deriving DecidableEq, Repr

namespace ChannelOutputDevice

/-- `ChannelOutputDevice::put` (`io.rs` lines 103-105): send over the channel,
falling back to `buffer.push_front` when the send fails.  The second component
is the value as observed at the channel's receiving end, if delivered there. -/
def put (d : ChannelOutputDevice) (v : Int) : ChannelOutputDevice × Option Int :=
  if d.receiverPresent then (d, some v)
  else ({ d with buffer := v :: d.buffer }, none)

/-- `ChannelOutputDevice::get` (`io.rs` line 106): `buffer.pop_back()`. -/
def get (d : ChannelOutputDevice) : Option Int × ChannelOutputDevice :=
  match popBack d.buffer with
  | none => (none, d)
  | some (v, rest) => (some v, { d with buffer := rest })

/-- Successive `put`s of a list of values, front to back. -/
def putAll (d : ChannelOutputDevice) (vs : List Int) : ChannelOutputDevice :=
  vs.foldl (fun a v => (put a v).1) d

/-- Successive `get`s, as many as the fuel allows, collecting the values. -/
def getAll : Nat → ChannelOutputDevice → List Int × ChannelOutputDevice
  | 0, d => ([], d)
  | fuel + 1, d =>
    match get d with
    | (none, d2) => ([], d2)
    | (some v, d2) =>
      let r := getAll fuel d2
      (v :: r.1, r.2)

end ChannelOutputDevice

/-- Spec-side rendering of a program image as comma-separated decimal text. -/
def renderProgram : List Int → List Char
  | [] => []
  | [v] => intChars v
  | v :: l => intChars v ++ ',' :: renderProgram l

/-- Spec-side reading of the decoder contract: the mode selected by one
decimal digit, Position being the default supplied by the digit `0`. -/
def modeOfDigit (d : Nat) : ParameterMode :=
  if d = 0 then .Position else if d = 1 then .Immediate else .Relative

/-- The program of the spec's concrete scenario 1. -/
def scenario1 : List Int := [1, 9, 10, 3, 2, 3, 11, 0, 99, 30, 40, 50]

/-- The self-replicating program of the spec's concrete scenario 3. -/
def quineProgram : List Int :=
  [109, 1, 204, -1, 1001, 100, 1, 100, 1008, 100, 16, 101, 1006, 101, 0, 99]

/-- An Add instruction whose destination parameter carries Immediate mode
(mode digits `100`), followed by a halt. -/
def immediateDestProgram : List Int := [10001, 5, 6, 7, 99, 11, 31, 0]

/-- A four-word program image used to exercise the memory boundary contract. -/
def boundaryMachine : Machine := from_memory [1, 2, 3, 4]

/-! ## Device-buffer lemmas -/

theorem popBack_append_singleton (l : List Int) (x : Int) :
    popBack (l ++ [x]) = some (x, l) := by
  induction l with
  | nil => rfl
  | cons y l ih => simp [popBack, ih]

theorem cod_putAll_closed (vs : List Int) (b : List Int) :
    ChannelOutputDevice.putAll ⟨b, false⟩ vs = ⟨vs.reverse ++ b, false⟩ := by
  induction vs generalizing b with
  | nil => simp [ChannelOutputDevice.putAll]
  | cons v vs ih =>
    show ChannelOutputDevice.putAll ((ChannelOutputDevice.put ⟨b, false⟩ v).1) vs = _
    simp only [ChannelOutputDevice.put, Bool.false_eq_true, if_false]
    rw [ih]
    simp

theorem cod_getAll_reverse (vs : List Int) (r : Bool) :
    ChannelOutputDevice.getAll vs.length ⟨vs.reverse, r⟩ = (vs, ⟨[], r⟩) := by
  induction vs with
  | nil => rfl
  | cons v vs ih =>
    simp only [List.length_cons, List.reverse_cons, ChannelOutputDevice.getAll,
      ChannelOutputDevice.get, popBack_append_singleton]
    rw [ih]

/-- C9: for a `ChannelOutputDevice` whose channel send fails (receiving end
gone), every value passed to `put` is retained in the local buffer rather
than delivered anywhere, and subsequent `get` calls return the retained
values oldest-first, one per call, and then `none`. -/
theorem channel_closed_output_retained (vs : List Int) :
    (∀ v b, (ChannelOutputDevice.put ⟨b, false⟩ v).2 = none) ∧
    ChannelOutputDevice.getAll vs.length
        (ChannelOutputDevice.putAll ⟨[], false⟩ vs) = (vs, ⟨[], false⟩) ∧
    (ChannelOutputDevice.get
        (ChannelOutputDevice.getAll vs.length
          (ChannelOutputDevice.putAll ⟨[], false⟩ vs)).2).1 = none := by
  have h : ChannelOutputDevice.putAll ⟨[], false⟩ vs = ⟨vs.reverse, false⟩ := by
    rw [cod_putAll_closed]; simp
  refine ⟨fun v b => rfl, ?_, ?_⟩
  · rw [h, cod_getAll_reverse]
  · rw [h, cod_getAll_reverse]
    rfl

/-! ## Concrete scenarios -/

/-- C5: running `1,9,10,3,2,3,11,0,99,30,40,50` to completion with `execute`
succeeds, and afterwards `load_position 0` returns `3500`. -/
theorem scenario1_leaves_3500_at_0 :
    ∃ m : Machine, execute 100 (from_memory scenario1) = some (.ok m) ∧
      load_position m 0 = 3500 :=
  ⟨_, rfl, rfl⟩

/-- C6: the 16-word quine program runs to completion and the drained output
sequence equals the loaded program image itself. -/
theorem quine_outputs_its_own_image :
    quineProgram.length = 16 ∧
    ∃ m : Machine, execute 300 (from_memory quineProgram) = some (.ok m) ∧
      get_all_output m = quineProgram :=
  ⟨rfl, _, rfl, rfl⟩

/-- C7 counterexample: the word `10001` decodes to an Add whose destination
parameter carries Immediate mode, and the instruction executes anyway,
storing `11 + 31 = 42` at the raw destination address `7`. -/
theorem immediate_mode_destination_executes :
    get_instruction (from_memory immediateDestProgram) =
      .ok (.Add ⟨5, .Position⟩ ⟨6, .Position⟩ ⟨7, .Immediate⟩, 4) ∧
    ∃ m : Machine, execute 10 (from_memory immediateDestProgram) = some (.ok m) ∧
      load_position m 7 = 42 :=
  ⟨rfl, _, rfl, rfl⟩

/-- C7 (amended): the decoder does not restrict destination modes; `store`
resolves an Immediate-mode destination exactly like a Position-mode one,
using the raw parameter value as the address. -/
theorem store_immediate_eq_store_position (s : Machine) (p v : Int) :
    store s ⟨p, ParameterMode.Immediate⟩ v = store s ⟨p, ParameterMode.Position⟩ v := rfl

/-! ## The memory contract -/

/-- C1: `load_position` never fails and returns `0` for any address past the
dense segment that is absent from the overflow map; after a write to any
address (`writeMem` is the location-resolved body of `store`, and `store`
with a Position-mode parameter writes the same address), `load_position`
at that address returns the written value. -/
theorem memory_read_write_contract (s : Machine) (addr : Nat) (v : Int) :
    load_position (writeMem s addr v) addr = v ∧
    (addr ≥ s.memory.length → lookupAssoc s.extended_memory addr = none →
      load_position s addr = 0) ∧
    (addr < 2 ^ 64 → load_position (store s ⟨(addr : Int), .Position⟩ v) addr = v) := by
  have hw : load_position (writeMem s addr v) addr = v := by
    by_cases h : addr ≥ s.memory.length
    · simp only [writeMem, h, if_true, load_position, lookupAssoc, insertAssoc]
      rw [List.find?_cons_of_pos]
      · simp [h]
      · simp
    · have hlt : addr < s.memory.length := by omega
      simp only [writeMem, h, if_false, load_position, List.length_set]
      rw [List.getD_eq_getElem?_getD, List.getElem?_set_self hlt]
      rfl
  refine ⟨hw, fun h1 h2 => by simp [load_position, h1, h2], fun h64 => ?_⟩
  have ha : asUsize ((addr : Nat) : Int) = addr := by
    unfold asUsize
    rw [Int.emod_eq_of_lt (by positivity) (by exact_mod_cast h64)]
    simp
  show load_position (writeMem s (asUsize ((addr : Nat) : Int)) v) addr = v
  rw [ha]
  exact hw

/-- Witness for C1 at the boundary of the spec: address `40 = 10 × 4` is ten
times the loaded program's length; writing `77` there and reading it back
returns `77`, and reading it on the fresh machine returns `0`. -/
theorem memory_read_write_contract_witness :
    load_position (writeMem boundaryMachine 40 77) 40 = 77 ∧
    load_position boundaryMachine 40 = 0 ∧
    load_position (store boundaryMachine ⟨(40 : Int), .Position⟩ 77) 40 = 77 :=
  ⟨(memory_read_write_contract boundaryMachine 40 77).1,
   (memory_read_write_contract boundaryMachine 40 77).2.1 (by decide) rfl,
   (memory_read_write_contract boundaryMachine 40 77).2.2 (by decide)⟩

/-! ## Event-driven stepping: suspension and termination -/

/-- C2: if the next instruction decodes to LoadInput and the input device has
no value ready, one pass of the `execute_until_event` loop returns
InputRequired with the machine completely unchanged (instruction pointer
rolled back, no memory write); after supplying one input value, the next pass
completes the LoadInput exactly once — it consumes the one value, performs
the single destination write, leaves the pointer advanced, and the loop
continues from exactly that state. -/
theorem load_input_suspension_atomic (s : Machine) (dest : Parameter)
    (newIp : Nat) (v : Int)
    (hdec : get_instruction s = .ok (.LoadInput dest, newIp))
    (hempty : s.input = []) :
    stepEvent s = .ok (some .InputRequired, s) ∧
    (∀ fuel, execute_until_event (fuel + 1) s = some (.ok (.InputRequired, s))) ∧
    stepEvent (give_input s v) = .ok (none, store { s with ip := newIp } dest v) ∧
    (∀ fuel, execute_until_event (fuel + 1) (give_input s v) =
      execute_until_event fuel (store { s with ip := newIp } dest v)) := by
  obtain ⟨mem, ext, ip0, rb, inp, out⟩ := s
  replace hempty : inp = [] := hempty
  subst hempty
  have hdec2 : get_instruction (⟨mem, ext, ip0, rb, [v], out⟩ : Machine) =
      .ok (.LoadInput dest, newIp) := hdec
  have h1 : stepEvent (⟨mem, ext, ip0, rb, [], out⟩ : Machine) =
      .ok (some .InputRequired, ⟨mem, ext, ip0, rb, [], out⟩) := by
    simp [stepEvent, hdec, execute_instruction, popBack]
  have h3 : stepEvent (give_input (⟨mem, ext, ip0, rb, [], out⟩ : Machine) v) =
      .ok (none, store { Machine.mk mem ext ip0 rb [] out with ip := newIp } dest v) := by
    simp [stepEvent, give_input, hdec2, execute_instruction, popBack]
  refine ⟨h1, fun fuel => by simp [execute_until_event, h1], h3,
    fun fuel => by simp [execute_until_event, h3]⟩

/-- Witness for C2 on the program `3,3,99` with one supplied input `7`. -/
theorem load_input_suspension_atomic_witness :
    stepEvent (from_memory [3, 3, 99]) = .ok (some .InputRequired, from_memory [3, 3, 99]) ∧
    stepEvent (give_input (from_memory [3, 3, 99]) 7) =
      .ok (none, store { from_memory [3, 3, 99] with ip := 2 } ⟨3, .Position⟩ 7) :=
  ⟨(load_input_suspension_atomic (from_memory [3, 3, 99]) ⟨3, .Position⟩ 2 7 rfl rfl).1,
   (load_input_suspension_atomic (from_memory [3, 3, 99]) ⟨3, .Position⟩ 2 7 rfl rfl).2.2.1⟩

theorem stepEvent_exited_eq {s t : Machine}
    (h : stepEvent s = .ok (some .Exited, t)) : t = s := by
  unfold stepEvent at h
  cases hg : get_instruction s with
  | error e => rw [hg] at h; simp at h
  | ok r =>
    obtain ⟨instr, nip⟩ := r
    rw [hg] at h
    cases instr with
    | Add o1 o2 dest => simp [execute_instruction] at h
    | Mul o1 o2 dest => simp [execute_instruction] at h
    | LoadInput dest =>
      rcases hpb : popBack ({ s with ip := nip } : Machine).input with _ | ⟨w, rest⟩ <;>
        simp [execute_instruction, hpb] at h
    | Output val => simp [execute_instruction] at h
    | LessThan o1 o2 dest => simp [execute_instruction] at h
    | Equals o1 o2 dest => simp [execute_instruction] at h
    | JumpIfTrue p t2 => simp [execute_instruction] at h
    | JumpIfFalse p t2 => simp [execute_instruction] at h
    | AdjustRelativeBase val => simp [execute_instruction] at h
    | Exit =>
      simp [execute_instruction] at h
      exact h.symm

theorem exec_event_exited_stable :
    ∀ fuel (s t : Machine), execute_until_event fuel s = some (.ok (.Exited, t)) →
      stepEvent t = .ok (some .Exited, t) := by
  intro fuel
  induction fuel with
  | zero => intro s t h; simp [execute_until_event] at h
  | succ f ih =>
    intro s t h
    unfold execute_until_event at h
    cases hs : stepEvent s with
    | error e => rw [hs] at h; simp at h
    | ok r =>
      obtain ⟨oev, u⟩ := r
      rw [hs] at h
      cases oev with
      | none => exact ih u t h
      | some ev =>
        simp at h
        obtain ⟨hev, hu⟩ := h
        subst hev
        subst hu
        have heq := stepEvent_exited_eq hs
        rw [heq] at hs ⊢
        exact hs

/-- C3: once `execute_until_event` has returned Exited with machine state
`t`, one pass of the loop from `t` yields Exited again with the state
literally unchanged (so memory, overflow map, instruction pointer and
relative base are all untouched), and every subsequent call with any fuel
returns Exited with the same unchanged state. -/
theorem exited_terminal_idempotent (fuel : Nat) (s t : Machine)
    (h : execute_until_event fuel s = some (.ok (.Exited, t))) :
    stepEvent t = .ok (some .Exited, t) ∧
    ∀ fuel2, execute_until_event (fuel2 + 1) t = some (.ok (.Exited, t)) := by
  have hst := exec_event_exited_stable fuel s t h
  exact ⟨hst, fun fuel2 => by simp [execute_until_event, hst]⟩

/-- Witness for C3 on the program `99`. -/
theorem exited_terminal_idempotent_witness :
    execute_until_event 3 (from_memory [99]) = some (.ok (.Exited, from_memory [99])) :=
  (exited_terminal_idempotent 1 (from_memory [99]) (from_memory [99]) rfl).2 2

/-! ## Decimal rendering and parsing -/

theorem natCharsAux_fuel : ∀ (f g n : Nat), n < f → n < g →
    natCharsAux f n = natCharsAux g n := by
  intro f
  induction f with
  | zero => intro g n h; omega
  | succ f ihf =>
    intro g n hf hg
    cases g with
    | zero => omega
    | succ g =>
      simp only [natCharsAux]
      by_cases h10 : n < 10
      · simp [h10]
      · have hd : n / 10 < n := Nat.div_lt_self (by omega) (by norm_num)
        simp only [h10, if_false]
        rw [ihf g (n / 10) (by omega) (by omega)]

theorem natChars_lt {n : Nat} (h : n < 10) : natChars n = [digitCh n] := by
  simp [natChars, natCharsAux, h]

theorem natChars_ge {n : Nat} (h : 10 ≤ n) :
    natChars n = natChars (n / 10) ++ [digitCh (n % 10)] := by
  have hd : n / 10 < n := Nat.div_lt_self (by omega) (by norm_num)
  show natCharsAux (n + 1) n = natChars (n / 10) ++ [digitCh (n % 10)]
  rw [show natCharsAux (n + 1) n =
      if n < 10 then [digitCh n] else natCharsAux n (n / 10) ++ [digitCh (n % 10)] from rfl]
  rw [if_neg (by omega), natCharsAux_fuel n (n / 10 + 1) (n / 10) (by omega) (by omega)]
  rfl

theorem digitCh_toNat {d : Nat} (h : d < 10) : (digitCh d).toNat = 48 + d := by
  interval_cases d <;> rfl

theorem digitVal_digitCh {d : Nat} (h : d < 10) : digitVal (digitCh d) = some d := by
  interval_cases d <;> rfl

theorem modeOfChar_digitCh {d : Nat} (h : d < 10) : modeOfChar (digitCh d) = modeOfDigit d := by
  interval_cases d <;> rfl

theorem natChars_all_digits : ∀ (n : Nat), ∀ c ∈ natChars n, 48 ≤ c.toNat ∧ c.toNat ≤ 57 := by
  intro n
  induction n using Nat.strong_induction_on with
  | _ n IH =>
    by_cases h : n < 10
    · rw [natChars_lt h]
      intro c hc
      simp at hc
      subst hc
      rw [digitCh_toNat h]
      omega
    · push_neg at h
      rw [natChars_ge h]
      intro c hc
      rcases List.mem_append.mp hc with hc | hc
      · exact IH (n / 10) (Nat.div_lt_self (by omega) (by norm_num)) c hc
      · simp at hc
        subst hc
        have hm : n % 10 < 10 := Nat.mod_lt n (by norm_num)
        rw [digitCh_toNat hm]
        omega

theorem natChars_ne_nil (n : Nat) : natChars n ≠ [] := by
  by_cases h : n < 10
  · rw [natChars_lt h]; simp
  · push_neg at h; rw [natChars_ge h]; simp

theorem parseNatAux_append (xs ys : List Char) : ∀ acc, parseNatAux acc (xs ++ ys) =
    (parseNatAux acc xs).bind fun a => parseNatAux a ys := by
  induction xs with
  | nil => intro acc; simp [parseNatAux]
  | cons c cs ih =>
    intro acc
    simp only [List.cons_append, parseNatAux]
    cases hd : digitVal c with
    | none => simp
    | some d => simp [ih]

theorem parseNatAux_natChars (n : Nat) : ∀ acc,
    parseNatAux acc (natChars n) = some (acc * 10 ^ (natChars n).length + n) := by
  induction n using Nat.strong_induction_on with
  | _ n IH =>
    intro acc
    by_cases h : n < 10
    · rw [natChars_lt h]
      simp [parseNatAux, digitVal_digitCh h]
    · push_neg at h
      have hd : n / 10 < n := Nat.div_lt_self (by omega) (by norm_num)
      have hm : n % 10 < 10 := Nat.mod_lt n (by norm_num)
      rw [natChars_ge h, parseNatAux_append, IH (n / 10) hd acc]
      simp only [Option.some_bind, parseNatAux, digitVal_digitCh hm, List.length_append,
        List.length_singleton]
      congr 1
      have harith : (acc * 10 ^ (natChars (n / 10)).length + n / 10) * 10 + n % 10 =
          acc * (10 ^ (natChars (n / 10)).length * 10) + (10 * (n / 10) + n % 10) := by ring
      rw [harith, Nat.div_add_mod, ← pow_succ]

theorem parseI64_intChars (v : Int) (hlo : -(2 ^ 63) ≤ v) (hhi : v ≤ 2 ^ 63 - 1) :
    parseI64 (intChars v) = some v := by
  by_cases hv : v < 0
  · rw [intChars, if_pos hv]
    rcases hne : natChars (-v).toNat with _ | ⟨r, rs⟩
    · exact absurd hne (natChars_ne_nil _)
    · rw [show parseI64 ('-' :: r :: rs) =
          ((parseNatAux 0 (r :: rs)).bind fun m =>
            if m ≤ 2 ^ 63 then some (-(m : Int)) else none) from rfl]
      rw [← hne, parseNatAux_natChars]
      simp only [Option.some_bind, zero_mul, zero_add]
      rw [if_pos (show (-v).toNat ≤ 2 ^ 63 by omega)]
      congr 1
      omega
  · push_neg at hv
    rw [intChars, if_neg (by omega)]
    rcases hne : natChars v.toNat with _ | ⟨c, rest⟩
    · exact absurd hne (natChars_ne_nil _)
    · have hcd : 48 ≤ c.toNat ∧ c.toNat ≤ 57 :=
        natChars_all_digits _ c (by rw [hne]; exact List.mem_cons_self c rest)
      have hcm : ¬ c = '-' := by intro h; rw [h] at hcd; exact absurd hcd (by decide)
      have hcp : ¬ c = '+' := by intro h; rw [h] at hcd; exact absurd hcd (by decide)
      simp only [parseI64, if_neg hcm, if_neg hcp]
      rw [← hne, parseNatAux_natChars]
      simp only [Option.some_bind, zero_mul, zero_add]
      rw [if_pos (show v.toNat ≤ 2 ^ 63 - 1 by omega)]
      congr 1
      omega

theorem intChars_no_comma (v : Int) : ∀ c ∈ intChars v, ¬ c = ',' := by
  intro c hc
  rw [intChars] at hc
  by_cases hv : v < 0
  · rw [if_pos hv] at hc
    rcases List.mem_cons.mp hc with h | h
    · subst h; decide
    · have hd := natChars_all_digits _ c h
      intro hcc; rw [hcc] at hd; exact absurd hd (by decide)
  · rw [if_neg hv] at hc
    have hd := natChars_all_digits _ c hc
    intro hcc; rw [hcc] at hd; exact absurd hd (by decide)

theorem splitComma_ne_nil (l : List Char) : splitComma l ≠ [] := by
  cases l with
  | nil => simp [splitComma]
  | cons c cs =>
    simp only [splitComma]
    rcases h : splitComma cs with _ | ⟨g, gs⟩
    · simp
    · by_cases hc : c = ',' <;> simp [hc]

theorem splitComma_no_comma : ∀ (xs : List Char), (∀ c ∈ xs, ¬ c = ',') →
    splitComma xs = [xs] := by
  intro xs
  induction xs with
  | nil => intro _; rfl
  | cons c cs ih =>
    intro h
    have hcs := ih fun d hd => h d (List.mem_cons_of_mem c hd)
    simp only [splitComma, hcs]
    rw [if_neg (h c (List.mem_cons_self c cs))]

theorem splitComma_append (xs ys : List Char) (h : ∀ c ∈ xs, ¬ c = ',') :
    splitComma (xs ++ ',' :: ys) = xs :: splitComma ys := by
  induction xs with
  | nil =>
    simp only [List.nil_append, splitComma]
    rcases hys : splitComma ys with _ | ⟨g, gs⟩
    · exact absurd hys (splitComma_ne_nil ys)
    · simp
  | cons c cs ih =>
    have hih := ih fun d hd => h d (List.mem_cons_of_mem c hd)
    simp only [List.cons_append, splitComma, List.append_eq, hih]
    rw [if_neg (h c (List.mem_cons_self c cs))]

/-- C8 counterexample: a trailing newline makes `raw_to_memory` fail, because
`str::parse::<i64>` rejects any non-digit character and nothing trims the
text first. -/
theorem raw_to_memory_trailing_newline_fails :
    raw_to_memory ['1', '\n'] = .error "Invalid integer given: 1\n" := rfl

/-- C8 (amended): every nonempty list of `i64` values rendered as
comma-separated decimal text *without* trailing whitespace parses back to
exactly that list; trailing whitespace or a trailing newline instead makes
`raw_to_memory` fail (see the counterexample). -/
theorem raw_to_memory_render_roundtrip : ∀ (l : List Int), l ≠ [] →
    (∀ v ∈ l, -(2 ^ 63) ≤ v ∧ v ≤ 2 ^ 63 - 1) →
    raw_to_memory (renderProgram l) = .ok l := by
  intro l
  induction l with
  | nil => intro h; exact absurd rfl h
  | cons v l ih =>
    intro _ hrange
    have hv := parseI64_intChars v (hrange v (by simp)).1 (hrange v (by simp)).2
    cases l with
    | nil =>
      rw [show renderProgram [v] = intChars v from rfl]
      rw [raw_to_memory, splitComma_no_comma _ (intChars_no_comma v)]
      simp only [List.mapM_cons, List.mapM_nil, hv]
      rfl
    | cons w l2 =>
      have hrender : renderProgram (v :: w :: l2) = intChars v ++ ',' :: renderProgram (w :: l2) := rfl
      have ht : raw_to_memory (renderProgram (w :: l2)) = .ok (w :: l2) :=
        ih (by simp) fun x hx => hrange x (List.mem_cons_of_mem v hx)
      rw [raw_to_memory] at ht
      rw [hrender, raw_to_memory, splitComma_append _ _ (intChars_no_comma v),
        List.mapM_cons, ht]
      simp only [hv]
      rfl

/-- Witness for C8 (amended) on the list `[3, -5]`, rendered as `3,-5`. -/
theorem raw_to_memory_render_roundtrip_witness :
    raw_to_memory (renderProgram [3, -5]) = .ok [3, -5] :=
  raw_to_memory_render_roundtrip [3, -5] (by simp) (by decide)

/-! ## The decoder contract -/

theorem getD_take_of_lt {α : Type} (L : List α) (n i : Nat) (d : α) (h : i < n) :
    (L.take n).getD i d = L.getD i d := by
  rw [List.getD_eq_getElem?_getD, List.getElem?_take, if_pos h, ← List.getD_eq_getElem?_getD]

theorem getD_append_replicate {α : Type} (A : List α) (n i : Nat) (c : α) :
    (A ++ List.replicate n c).getD i c = A.getD i c := by
  by_cases h : i < A.length
  · rw [List.getD_append _ _ _ _ h]
  · push_neg at h
    rw [List.getD_append_right _ _ _ _ h]
    rw [List.getD_eq_getElem?_getD, List.getElem?_replicate]
    rw [List.getD_eq_getElem?_getD A, List.getElem?_eq_none h]
    by_cases hn : i - A.length < n <;> simp [hn]

theorem modes_getD (m : Nat) : ∀ (i : Nat),
    ((natChars m).reverse.map modeOfChar).getD i .Position = modeOfDigit (m / 10 ^ i % 10) := by
  induction m using Nat.strong_induction_on with
  | _ m IH =>
    intro i
    by_cases h : m < 10
    · rw [natChars_lt h]
      cases i with
      | zero =>
        simp only [List.reverse_singleton, List.map_cons, List.map_nil, List.getD_cons_zero,
          pow_zero, Nat.div_one]
        rw [modeOfChar_digitCh h, Nat.mod_eq_of_lt h]
      | succ j =>
        have h10 : (10 : Nat) ≤ 10 ^ (j + 1) := by
          calc (10 : Nat) = 10 ^ 1 := (pow_one 10).symm
            _ ≤ 10 ^ (j + 1) := Nat.pow_le_pow_right (by norm_num) (by omega)
        have h0 : m / 10 ^ (j + 1) = 0 := Nat.div_eq_of_lt (lt_of_lt_of_le h h10)
        simp [h0, modeOfDigit]
    · push_neg at h
      rw [natChars_ge h]
      have hm : m % 10 < 10 := Nat.mod_lt m (by norm_num)
      simp only [List.reverse_append, List.reverse_singleton, List.singleton_append,
        List.map_cons]
      cases i with
      | zero =>
        simp only [List.getD_cons_zero, pow_zero, Nat.div_one]
        rw [modeOfChar_digitCh hm]
      | succ j =>
        simp only [List.getD_cons_succ]
        rw [IH (m / 10) (Nat.div_lt_self (by omega) (by norm_num)) j]
        rw [Nat.div_div_eq_div_mul, ← pow_succ']

theorem param_modes_getD (w : Int) (hw : 0 ≤ w) (n i : Nat) (h : i < n) :
    (param_modes w n).getD i .Position =
      modeOfDigit ((Int.tdiv w 100).toNat / 10 ^ i % 10) := by
  have htd : ¬ Int.tdiv w 100 < 0 := by
    have := Int.tdiv_nonneg hw (by norm_num : (0 : Int) ≤ 100)
    omega
  rw [param_modes, getD_take_of_lt _ _ _ _ h, intChars, if_neg htd, getD_append_replicate,
    modes_getD]

theorem instruction_param_length_ok_iff (op : Int) :
    (∃ n, instruction_param_length op = .ok n) ↔
      op ∈ ([1, 2, 3, 4, 5, 6, 7, 8, 9, 99] : List Int) := by
  constructor
  · rintro ⟨n, hn⟩
    by_contra hmem
    simp only [List.mem_cons, List.not_mem_nil, or_false, not_or] at hmem
    obtain ⟨h1, h2, h3, h4, h5, h6, h7, h8, h9, h10⟩ := hmem
    simp [instruction_param_length, h1, h2, h3, h4, h5, h6, h7, h8, h9, h10] at hn
  · intro hmem
    simp only [List.mem_cons, List.not_mem_nil, or_false] at hmem
    rcases hmem with h | h | h | h | h | h | h | h | h | h <;> subst h <;> exact ⟨_, rfl⟩

theorem get_instruction_ok_iff (s : Machine) :
    (∃ r, get_instruction s = .ok r) ↔
      (∃ n, instruction_param_length (Int.tmod (load_position s s.ip) 100) = .ok n) := by
  constructor
  · rintro ⟨r, hr⟩
    simp only [get_instruction] at hr
    cases hpl : instruction_param_length (Int.tmod (load_position s s.ip) 100) with
    | error e => rw [hpl] at hr; simp at hr
    | ok n => exact ⟨n, rfl⟩
  · rintro ⟨n, hn⟩
    cases hgi : get_instruction s with
    | ok r => exact ⟨r, rfl⟩
    | error e =>
      exfalso
      have hop := (instruction_param_length_ok_iff _).mp ⟨n, hn⟩
      simp only [List.mem_cons, List.not_mem_nil, or_false] at hop
      simp only [get_instruction] at hgi
      rw [hn] at hgi
      rcases hop with h | h | h | h | h | h | h | h | h | h <;> rw [h] at hgi <;> simp at hgi

theorem get_instruction_ok_advance (s : Machine) (instr : IntcodeInstruction) (nip : Nat)
    (h : get_instruction s = .ok (instr, nip)) :
    ∃ n, instruction_param_length (Int.tmod (load_position s s.ip) 100) = .ok n ∧
      nip = s.ip + 1 + n := by
  simp only [get_instruction] at h
  cases hpl : instruction_param_length (Int.tmod (load_position s s.ip) 100) with
  | error e => rw [hpl] at h; simp at h
  | ok n =>
    rw [hpl] at h
    refine ⟨n, rfl, ?_⟩
    have hop := (instruction_param_length_ok_iff _).mp ⟨n, hpl⟩
    simp only [List.mem_cons, List.not_mem_nil, or_false] at hop
    rcases hop with hc | hc | hc | hc | hc | hc | hc | hc | hc | hc <;>
      rw [hc] at h <;> norm_num at h <;> omega

/-- C4: the decoder takes the word at `ip`, dispatches on its value modulo
100 (the low two decimal digits), uses the fixed parameter counts
(Add/Mul/LessThan/Equals 3, LoadInput/Output/AdjustRelativeBase 1,
JumpIfTrue/JumpIfFalse 2, Exit 0), succeeds exactly when that opcode is one
of {1,...,9,99} and fails with InvalidOpcode otherwise, returns the advanced
instruction pointer `ip + 1 + parameter_count` on success, and assigns the
`i`-th parameter the mode selected by the `i`-th decimal digit (least
significant first) of `word / 100`, Position being the default for digits
not supplied. -/
theorem decoder_contract :
    (instruction_param_length 1 = .ok 3 ∧ instruction_param_length 2 = .ok 3 ∧
     instruction_param_length 3 = .ok 1 ∧ instruction_param_length 4 = .ok 1 ∧
     instruction_param_length 5 = .ok 2 ∧ instruction_param_length 6 = .ok 2 ∧
     instruction_param_length 7 = .ok 3 ∧ instruction_param_length 8 = .ok 3 ∧
     instruction_param_length 9 = .ok 1 ∧ instruction_param_length 99 = .ok 0) ∧
    (∀ op : Int, op ∉ ([1, 2, 3, 4, 5, 6, 7, 8, 9, 99] : List Int) →
      ∃ e, instruction_param_length op = .error e) ∧
    (∀ s : Machine, (∃ r, get_instruction s = .ok r) ↔
      Int.tmod (load_position s s.ip) 100 ∈ ([1, 2, 3, 4, 5, 6, 7, 8, 9, 99] : List Int)) ∧
    (∀ s instr nip, get_instruction s = .ok (instr, nip) →
      ∃ n, instruction_param_length (Int.tmod (load_position s s.ip) 100) = .ok n ∧
        nip = s.ip + 1 + n) ∧
    (∀ w : Int, 0 ≤ w → ∀ n i, i < n →
      (param_modes w n).getD i .Position =
        modeOfDigit ((Int.tdiv w 100).toNat / 10 ^ i % 10)) := by
  refine ⟨⟨rfl, rfl, rfl, rfl, rfl, rfl, rfl, rfl, rfl, rfl⟩, ?_, ?_, ?_, param_modes_getD⟩
  · intro op hmem
    cases h : instruction_param_length op with
    | error e => exact ⟨e, rfl⟩
    | ok n => exact absurd ((instruction_param_length_ok_iff op).mp ⟨n, h⟩) hmem
  · intro s
    rw [get_instruction_ok_iff, instruction_param_length_ok_iff]
  · exact get_instruction_ok_advance

/-- Witness for C4: opcode `42` is rejected; the word `1002` (opcode 2,
mode digits `10`) decodes with the pointer advanced by `1 + 3`; the third
mode digit of the word `21002` is the digit `2`. -/
theorem decoder_contract_witness :
    (∃ e, instruction_param_length 42 = .error e) ∧
    (∃ r, get_instruction (from_memory [1002, 4, 3, 4, 33]) = .ok r) ∧
    (∃ n, instruction_param_length
        (Int.tmod (load_position (from_memory [1002, 4, 3, 4, 33])
          (from_memory [1002, 4, 3, 4, 33]).ip) 100) = .ok n ∧
      (4 : Nat) = (from_memory [1002, 4, 3, 4, 33]).ip + 1 + n) ∧
    (param_modes 21002 3).getD 2 .Position =
      modeOfDigit ((Int.tdiv 21002 100).toNat / 10 ^ 2 % 10) :=
  ⟨decoder_contract.2.1 42 (by decide),
   (decoder_contract.2.2.1 _).mpr (by decide),
   decoder_contract.2.2.2.1 _ (.Mul ⟨4, .Position⟩ ⟨3, .Immediate⟩ ⟨4, .Position⟩) 4 rfl,
   decoder_contract.2.2.2.2 21002 (by decide) 3 2 (by decide)⟩

/-- C10: every parameter-mode character other than `'0'` and `'1'` —
including the digits `'2'` to `'9'` and the `'-'` sign character of a
negative instruction word — maps to Relative mode; mode characters never
cause a decode error, so `get_instruction` fails only when the opcode (the
word modulo 100) is outside the recognized set. -/
theorem mode_chars_total_relative_default :
    (∀ c : Char, c ≠ '0' → c ≠ '1' → modeOfChar c = .Relative) ∧
    modeOfChar '-' = .Relative ∧
    (∀ s : Machine, ∀ e, get_instruction s = .error e →
      Int.tmod (load_position s s.ip) 100 ∉ ([1, 2, 3, 4, 5, 6, 7, 8, 9, 99] : List Int)) := by
  refine ⟨fun c h0 h1 => by simp [modeOfChar, h0, h1], rfl, fun s e hgi hmem => ?_⟩
  obtain ⟨r, hr⟩ := (get_instruction_ok_iff s).mpr ((instruction_param_length_ok_iff _).mpr hmem)
  rw [hgi] at hr
  simp at hr

/-- Witness for C10: the digit `'7'` maps to Relative, and on the program
`0` (opcode 0) `get_instruction` fails, so opcode 0 is outside the set. -/
theorem mode_chars_total_relative_default_witness :
    modeOfChar '7' = .Relative ∧
    Int.tmod (load_position (from_memory [0]) (from_memory [0]).ip) 100 ∉
      ([1, 2, 3, 4, 5, 6, 7, 8, 9, 99] : List Int) :=
  ⟨mode_chars_total_relative_default.1 '7' (by decide) (by decide),
   mode_chars_total_relative_default.2.2 (from_memory [0]) _ rfl⟩
